import Mathlib

/-!
Verification of the contravider providers/config packages against their
specification.  Each Go function relevant to the checked claims is embedded
as an executable Lean definition; effectful code is modelled by explicit
state passing (an association-list file system, an abstract outcome record
for `System.Serve`'s external steps).  Source references are given per
definition.
-/

namespace Contravider

/-- Protection is the credential pair attached to a folder.
Source: pkg/providers/directives.go, type Protection (user, password). -/
structure Protection where
  user : String
  password : String
deriving DecidableEq, Repr

/-- Directives is the parsed content of a directives file.
Source: pkg/providers/directives.go, type Directives. -/
structure Directives where
  protection : Option Protection
deriving DecidableEq, Repr

/-- Directory is the recursive directory tree: a name, the list of child
folders, and an optional Protection.
Source: pkg/providers/directives.go, type Directory. -/
inductive Directory where
  | node (name : String) (folders : List Directory) (protection : Option Protection)

/-- Name field of a Directory node. -/
def Directory.name : Directory → String
  | .node n _ _ => n

/-- Folders field of a Directory node. -/
def Directory.folders : Directory → List Directory
  | .node _ fs _ => fs

/-- Protection field of a Directory node. -/
def Directory.protection : Directory → Option Protection
  | .node _ _ p => p

/-- FindProtection, transcribed from pkg/providers/directives.go lines
112-130: walk the path; empty segments are skipped; a segment with no
matching child returns nil at once; a matched child carrying a Protection
returns that Protection at once; otherwise descend into the child. -/
def Directory.findProtection : Directory → List String → Option Protection
  | _, [] => none
  | d, part :: rest =>
    if part = "" then Directory.findProtection d rest
    else
      match (Directory.folders d).find? (fun f => Directory.name f == part) with
      | none => none
      | some next =>
        match Directory.protection next with
        | some p => some p
        | none => Directory.findProtection next rest

/-- Validate, from pkg/providers/directives.go lines 133-135: exact string
equality on both fields. -/
def Protection.validate (p : Protection) (user password : String) : Bool :=
  p.user == user && p.password == password

/-- Modelled from the amended reading of the spec: the chain of child nodes
matched while descending along the (non-empty) path segments, stopping at
the first segment with no matching child. -/
def chainNodes : Directory → List String → List Directory
  | _, [] => []
  | d, part :: rest =>
    if part = "" then chainNodes d rest
    else
      match (Directory.folders d).find? (fun f => Directory.name f == part) with
      | none => []
      | some next => next :: chainNodes next rest

/-- Modelled from the amended reading of the spec: first Protection carried
by a node of the list, in order. -/
def firstProt : List Directory → Option Protection
  | [] => none
  | d :: rest =>
    match Directory.protection d with
    | some p => some p
    | none => firstProt rest

/-- Helper of addDirectives, from pkg/providers/directives.go lines 64-74:
replace the first folder named `part` by `r`, or append `r` when no folder
matches (slices.IndexFunc + append semantics of the Go walk). -/
def replaceFirst : List Directory → String → Directory → List Directory
  | [], _, r => [r]
  | f :: rest, part, r =>
    if Directory.name f == part then r :: rest
    else f :: replaceFirst rest part r

/-- Functional form of the directory walk of addDirectives
(pkg/providers/directives.go lines 59-75): descend along `path`, reusing the
first folder whose name matches each segment and creating missing folders,
and set the protection of the final node (overwriting whatever was there). -/
def addTo : Directory → List String → Option Protection → Directory
  | .node n fs _, [], prot => .node n fs prot
  | .node n fs p, part :: rest, prot =>
    let c :=
      match fs.find? (fun f => Directory.name f == part) with
      | some c => c
      | none => .node part [] none
    .node n (replaceFirst fs part (addTo c rest prot)) p

/-- addDirectives, from pkg/providers/directives.go lines 52-77, with the
TOML reader abstracted to its parsed `Directives` value (a parse failure
leaves the tree untouched and is not modelled here): the builder root is
created on first use, the walk covers path[:len(path)-1] (all but the file
name), and the target node's Protection is set to the parsed one. -/
def addDirectives (root : Option Directory) (path : List String) (d : Directives) : Option Directory :=
  let curr := root.getD (.node "" [] none)
  some (addTo curr path.dropLast d.protection)

/-- Observation: the Protection carried by the node at an exact folder path
(descending by first-matching child name, as every walk of the source does). -/
def protAt : Directory → List String → Option Protection
  | d, [] => Directory.protection d
  | d, part :: rest =>
    match (Directory.folders d).find? (fun f => Directory.name f == part) with
    | none => none
    | some next => protAt next rest

/-- Observation: whether a node exists at an exact folder path. -/
def hasNode : Directory → List String → Bool
  | _, [] => true
  | d, part :: rest =>
    match (Directory.folders d).find? (fun f => Directory.name f == part) with
    | none => false
    | some next => hasNode next rest

/-- Protection observation through the builder's optional root. -/
def protAtB : Option Directory → List String → Option Protection
  | none, _ => none
  | some d, q => protAt d q

/-- Node-existence observation through the builder's optional root. -/
def hasNodeB : Option Directory → List String → Bool
  | none, _ => false
  | some d, q => hasNode d q

/-- Outcome of opening and decoding the serialized directory file,
abstracting the file system and the JSON decoder of LoadDirectory. -/
inductive FileReadResult where
  | notExist
  | openFailure
  | decoded (d : Directory)
  | decodeFailure

/-- LoadDirectory, from pkg/providers/directives.go lines 94-108: a
not-exist open error yields an empty Directory and no error; any other open
error or a decode error is returned; otherwise the decoded tree is
returned. -/
def loadDirectory : FileReadResult → Except Unit Directory
  | .notExist => .ok (.node "" [] none)
  | .openFailure => .error ()
  | .decoded d => .ok d
  | .decodeFailure => .error ()

/-- Revisions of the given branches, collected in order, where
`rev` is the outcome of currentRevision per branch (none = git failure).
Source: the loop of allRevisionsHash (repository file holding
allRevisionsHash, lines 103-113): the first failing branch aborts. -/
def collectRevs (rev : String → Option String) : List String → Option (List String)
  | [] => some []
  | b :: bs =>
    match rev b with
    | none => none
    | some r =>
      match collectRevs rev bs with
      | none => none
      | some rs => some (r :: rs)

/-- Byte stream fed to the digest: the revisions concatenated, nothing
else (the Go loop does io.WriteString(hash, rev) for each branch; branch
identifiers are never written). -/
def revStream (rs : List String) : List Char :=
  (rs.map String.data).flatten

/-- allRevisionsHash, from the repository file holding it (lines 103-113),
with the digest abstracted as `h` (Go uses hex-encoded SHA-1 of the
streamed bytes, a function of the concatenated revisions). -/
def allRevisionsHash (h : List Char → String) (rev : String → Option String)
    (branches : List String) : Option String :=
  match collectRevs rev branches with
  | none => none
  | some rs => some (h (revStream rs))

/-- Modelled from the spec: the "ordered sequence of (branch-identifier,
current-revision) pairs" the spec says the fingerprint digests. -/
def specRevisionPairs (rev : String → Option String) (branches : List String) :
    List (String × Option String) :=
  branches.map (fun b => (b, rev b))

/-- Externally visible effects of one Serve call, in order of occurrence. -/
inductive Eff where
  | computeHash
  | mkdirTarget
  | mergeBranchesE
  | writeDirectivesE
  | writeKeyE
  | applyPatternsE
  | removeTargetE
  | symlinkE
deriving DecidableEq, Repr

/-- The two file-system facts Serve reads and writes: whether the
fingerprint-named Materialized Directory exists and whether the profile
alias (symlink) exists (os.Stat on the alias succeeding). -/
structure FsState where
  targetDirExists : Bool
  aliasExists : Bool
deriving DecidableEq, Repr

/-- Errors Serve can return, one per return site of
pkg/providers/system.go lines 86-195. -/
inductive ServeErr where
  | profileNotFound
  | absFailed
  | statFailed
  | hashFailed
  | mkdirFailed
  | mergeFailed
  | directivesFailed
  | keyFailed
  | patternsFailed
  | applyFailed
  | symlinkFailed
deriving DecidableEq, Repr

/-- Outcomes of the external operations one Serve call performs, in
program order: the profile's configured branch list
(cfg.Providers.Profiles[profile]), the two filepath.Abs calls, whether
os.Stat of the alias fails with an error other than not-exist, the
allRevisionsHash outcome, and the success of each later step. -/
structure ServeEnv where
  branches : List String
  absOk1 : Bool
  statErr : Bool
  hashResult : Option String
  absOk2 : Bool
  mkdirOk : Bool
  mergeOk : Bool
  directivesNonEmpty : Bool
  writeDirectivesOk : Bool
  writeKeyOk : Bool
  buildPatternsOk : Bool
  applyOk : Bool
  symlinkOk : Bool
deriving DecidableEq, Repr

/-- errExit of pkg/providers/system.go lines 139-143: remove the target
directory and return the error. -/
def errExit (e : ServeErr) (fs : FsState) (tr : List Eff) :
    Except ServeErr Unit × FsState × List Eff :=
  (.error e, { fs with targetDirExists := false }, tr ++ [Eff.removeTargetE])

/-- Serve, from pkg/providers/system.go lines 86-195, as a function of the
outcomes of its external operations and of the file-system state, returning
its result, the final file-system state, and the trace of effects: reject
an empty branch list (unknown profile); return success at once when the
alias already exists; otherwise hash the branch revisions, create the
target directory, merge, write the directives file when the builder is
non-empty, export the public key, build and apply the pattern actions, and
finally create the symlink; every failure after the target directory was
created removes it (errExit). -/
def serve (env : ServeEnv) (fs : FsState) :
    Except ServeErr Unit × FsState × List Eff :=
  if env.branches.length = 0 then (.error .profileNotFound, fs, [])
  else if env.absOk1 = false then (.error .absFailed, fs, [])
  else if env.statErr then (.error .statFailed, fs, [])
  else if fs.aliasExists then (.ok (), fs, [])
  else
    match env.hashResult with
    | none => (.error .hashFailed, fs, [Eff.computeHash])
    | some _ =>
      if env.absOk2 = false then (.error .absFailed, fs, [Eff.computeHash])
      else if env.mkdirOk = false then
        (.error .mkdirFailed, fs, [Eff.computeHash, Eff.mkdirTarget])
      else
        let fs1 := { fs with targetDirExists := true }
        let tr1 := [Eff.computeHash, Eff.mkdirTarget, Eff.mergeBranchesE]
        if env.mergeOk = false then errExit .mergeFailed fs1 tr1
        else
          let tr2 := tr1 ++ (if env.directivesNonEmpty then [Eff.writeDirectivesE] else [])
          if env.directivesNonEmpty && env.writeDirectivesOk = false then
            errExit .directivesFailed fs1 tr2
          else
            let tr3 := tr2 ++ [Eff.writeKeyE]
            if env.writeKeyOk = false then errExit .keyFailed fs1 tr3
            else if env.buildPatternsOk = false then errExit .patternsFailed fs1 tr3
            else
              let tr4 := tr3 ++ [Eff.applyPatternsE]
              if env.applyOk = false then errExit .applyFailed fs1 tr4
              else
                let tr5 := tr4 ++ [Eff.symlinkE]
                if env.symlinkOk = false then errExit .symlinkFailed fs1 tr5
                else (.ok (), { fs1 with aliasExists := true }, tr5)

/-- Tag for the two post-processing actions installed by
buildPatternActions (pkg/providers/system.go lines 199-209): hashFile and
the signing closure. -/
inductive ActionTag where
  | hashA
  | signA
deriving DecidableEq, Repr

/-- Matcher for a regular-expression tail of the shape X[^\.]*\.json$ once
the final ".json" has been stripped: some suffix of `r` starts with `X` and
continues dot-free to the end. -/
def dotFreeTail (X : List Char) : List Char → Bool
  | [] => X.isEmpty
  | c :: t =>
    (X.isPrefixOf (c :: t) && ((c :: t).drop X.length).all (fun ch => ch ≠ '.'))
      || dotFreeTail X t

/-- Go strings suffix test (char-level form of String.endsWith). -/
def strEndsWith (s suffix : String) : Bool :=
  List.isPrefixOf suffix.data.reverse s.data.reverse

/-- The name without its final ".json", or none when the name does not end
in ".json" (all three installed patterns are anchored with \.json$). -/
def stripJson (s : String) : Option (List Char) :=
  if strEndsWith s ".json" then some (s.data.take (s.data.length - 5)) else none

/-- Go regexp csaf-feed-tlp-[^\.]*\.json$ as an unanchored-search matcher. -/
def csafFeedPat (s : String) : Bool :=
  match stripJson s with
  | none => false
  | some r => dotFreeTail "csaf-feed-tlp-".data r

/-- Go regexp (\.directories|provider-metadata|service|category)[^\.]*\.json$
as an unanchored-search matcher. -/
def metadataPat (s : String) : Bool :=
  match stripJson s with
  | none => false
  | some r =>
    [".directories".data, "provider-metadata".data, "service".data, "category".data].any
      (fun X => dotFreeTail X r)

/-- Go regexp \.json$ as an unanchored-search matcher. -/
def jsonPat (s : String) : Bool :=
  strEndsWith s ".json"

/-- The pattern table of System.buildPatternActions
(pkg/providers/system.go lines 204-208): the two exclusion patterns carry
no action, the generic \.json$ pattern carries hashFile and signing. -/
def buildPatternActions : List ((String → Bool) × List ActionTag) :=
  [(csafFeedPat, []), (metadataPat, []), (jsonPat, [ActionTag.hashA, ActionTag.signA])]

/-- The actions PatternActions.Apply (pkg/providers/copy.go lines 130-156)
runs on one regular file: the pattern loop has no break, so the actions of
EVERY matching pattern run, concatenated in table order. -/
def applyActions (pa : List ((String → Bool) × List ActionTag)) (fname : String) :
    List ActionTag :=
  match pa with
  | [] => []
  | e :: rest => (if e.1 fname then e.2 else []) ++ applyActions rest fname

/-- Modelled from the spec: "a file matches at most one pattern (first
match wins — stop scanning further patterns once one matches, but run all
actions for the matched pattern)". -/
def firstMatchActions (pa : List ((String → Bool) × List ActionTag)) (fname : String) :
    List ActionTag :=
  match pa with
  | [] => []
  | e :: rest => if e.1 fname then e.2 else firstMatchActions rest fname

/-- Association-list file system: path to content, first entry wins. -/
abbrev Fs := List (String × String)

/-- Content of a file, or none when absent (os.Open / os.Stat). -/
def lookupFile (fs : Fs) (path : String) : Option String :=
  match List.find? (fun e => e.1 == path) fs with
  | none => none
  | some e => some e.2

/-- Write a file, truncating an existing one (os.Create / os.WriteFile). -/
def writeFile : Fs → String → String → Fs
  | [], path, content => [(path, content)]
  | e :: rest, path, content =>
    if e.1 == path then (path, content) :: rest
    else e :: writeFile rest path content

/-- checkFileNotExists, from pkg/providers/crypto.go lines 165-168: true
when os.Stat fails with not-exist. -/
def checkFileNotExists (fs : Fs) (path : String) : Bool :=
  (lookupFile fs path).isNone

/-- filepath.Base for the plain file paths the pipeline hands around: the
last slash-separated component. -/
def baseName (s : String) : String :=
  String.mk ((s.data.reverse.takeWhile (fun c => c ≠ '/')).reverse)

/-- writeHashtoFile, from pkg/providers/crypto.go lines 77-84: create the
file and print digest-hex, a space, the name and a newline; the second
component is the trace of paths written. -/
def writeHashtoFile (fs : Fs) (fname name hashHex : String) : Fs × List String :=
  (writeFile fs fname (hashHex ++ " " ++ name ++ "\n"), [fname])

/-- writeFileHashes, from pkg/providers/crypto.go lines 87-131, with the
two digests abstracted as hex-producing functions of the file bytes: when
neither hash is wanted return at once; otherwise open the file (error when
absent), then write the wanted .sha256 and .sha512 siblings. -/
def writeFileHashes (h256 h512 : List Char → String) (fs : Fs) (filePath : String)
    (w256 w512 : Bool) : Except Unit (Fs × List String) :=
  if w256 = false ∧ w512 = false then .ok (fs, [])
  else
    match lookupFile fs filePath with
    | none => .error ()
    | some content =>
      let name := baseName filePath
      let s1 :=
        if w256 then writeHashtoFile fs (filePath ++ ".sha256") name (h256 content.data)
        else (fs, [])
      let s2 :=
        if w512 then writeHashtoFile s1.1 (filePath ++ ".sha512") name (h512 content.data)
        else (s1.1, [])
      .ok (s2.1, s1.2 ++ s2.2)

/-- hashFile, from pkg/providers/crypto.go lines 149-162: write the hashes
whose sibling file does not already exist. -/
def hashFile (h256 h512 : List Char → String) (fs : Fs) (file : String) :
    Except Unit (Fs × List String) :=
  writeFileHashes h256 h512 fs file
    (checkFileNotExists fs (file ++ ".sha256"))
    (checkFileNotExists fs (file ++ ".sha512"))

/-- The action encloseSignFile returns (pkg/providers/crypto.go lines
134-146) combined with signFileWithKeyRing (lines 52-74), the armored
detached signature abstracted as a function of the file bytes: when the
.asc sibling does not exist, read the file (error when absent) and write
its signature. -/
def signFileAct (sig : List Char → String) (fs : Fs) (file : String) :
    Except Unit (Fs × List String) :=
  if checkFileNotExists fs (file ++ ".asc") then
    match lookupFile fs file with
    | none => .error ()
    | some content => .ok (writeFile fs (file ++ ".asc") (sig content.data), [file ++ ".asc"])
  else .ok (fs, [])

/-- Equality of Except values is decidable when both component types have
decidable equality (needed to evaluate the checker on concrete profiles). -/
instance {ε α : Type} [DecidableEq ε] [DecidableEq α] : DecidableEq (Except ε α) := fun a b =>
  match a, b with
  | .ok x, .ok y => decidable_of_iff (x = y) (by simp)
  | .error x, .error y => decidable_of_iff (x = y) (by simp)
  | .ok _, .error _ => isFalse (by simp)
  | .error _, .ok _ => isFalse (by simp)

/-- Errors of Profiles.check, one per return site of
pkg/config/profiles.go lines 52-90. -/
inductive ChkErr where
  | recursiveRef (name : String)
  | undefinedRef (name : String)
deriving DecidableEq, Repr

/-- The reference a recipe entry makes: strings.HasPrefix(def, "#") and
def[1:], from pkg/config/profiles.go lines 57-61. -/
def refOf (b : String) : Option String :=
  match b.data with
  | '#' :: rest => some (String.mk rest)
  | _ => none

/-- Profiles are modelled as an association list name-to-branches (Go map
iteration order only selects which error is reported first). -/
abbrev Profiles := List (String × List String)

/-- The defined profile names. -/
def profileKeys (p : Profiles) : List String :=
  p.map (fun e => e.1)

/-- Map lookup p[def], first entry wins. -/
def lookupProfile (p : Profiles) (d : String) : Option (List String) :=
  match List.find? (fun e => e.1 == d) p with
  | none => none
  | some e => some e.2

/-- Total branch-list length over all profiles, bounding how much one
reference expansion can grow the traversal stack. -/
def branchBound (p : Profiles) : Nat :=
  (p.map (fun e => e.2.length)).sum

/-- The resolve closure of Profiles.check (pkg/config/profiles.go lines
56-81), in iterative form: the stack holds the branch entries still to
visit in depth-first pre-order (exactly the order the nested Go loops
visit them); Go's growing `seen` set is represented by its complement
`unseen` within the defined profile names, so a reference is "seen" when
it is a defined name no longer in `unseen` (an undefined name is added to
`seen` just before the error return, which no later step can observe).
The extra fuel argument only makes the recursion structural: every step
consumes one stack entry and an expansion also consumes one `unseen`
entry, so `resolveFuel_sufficient` below shows the fuel `resolveRefs`
passes is never exhausted. -/
def resolveFuel (p : Profiles) : Nat → List String → List String → Option (Except ChkErr Unit)
  | _, _, [] => some (.ok ())
  | 0, _, _ :: _ => none
  | fuel + 1, unseen, b :: rest =>
    match refOf b with
    | none => resolveFuel p fuel unseen rest
    | some d =>
      if d ∈ unseen then
        match lookupProfile p d with
        | some bs => resolveFuel p fuel (unseen.erase d) (bs ++ rest)
        | none => some (.error (.undefinedRef d))
      else if d ∈ profileKeys p then some (.error (.recursiveRef d))
      else some (.error (.undefinedRef d))

/-- The resolve traversal with enough fuel for the whole depth-first walk
(`resolveFuel_sufficient` proves the default branch unreachable). -/
def resolveRefs (p : Profiles) (unseen stack : List String) : Except ChkErr Unit :=
  match resolveFuel p (stack.length + unseen.length * branchBound p + 1) unseen stack with
  | some r => r
  | none => .ok ()

/-- checkProfile of Profiles.check (pkg/config/profiles.go lines 53-83):
seen starts as the singleton of the profile's own name. -/
def checkOne (p : Profiles) (name : String) (branches : List String) :
    Except ChkErr Unit :=
  resolveRefs p ((profileKeys p).erase name) branches

/-- The loop of Profiles.check over every profile
(pkg/config/profiles.go lines 84-89). -/
def checkList (p : Profiles) : List (String × List String) → Except ChkErr Unit
  | [] => .ok ()
  | e :: rest =>
    match checkOne p e.1 e.2 with
    | .error err => .error err
    | .ok _ => checkList p rest

/-- Profiles.check, from pkg/config/profiles.go lines 52-90 (UnmarshalTOML
at lines 23-49 calls it after the type conversions and fails when it
fails). -/
def Profiles.check (p : Profiles) : Except ChkErr Unit :=
  checkList p p

/-- A chain of #-references from a branch list to a profile name: the name
is referenced directly by an entry of the list, or an entry references a
defined profile from whose branch list the name is reachable. -/
inductive Reaches (p : Profiles) : List String → String → Prop where
  | base {bs b x} : b ∈ bs → refOf b = some x → Reaches p bs x
  | step {bs b d bs2 x} : b ∈ bs → refOf b = some d → lookupProfile p d = some bs2 →
      Reaches p bs2 x → Reaches p bs x

/-- Example protection X of the spec's FindProtection scenario. -/
def protX : Protection := ⟨"userX", "passX"⟩

/-- Example protection Y of the spec's FindProtection scenario. -/
def protY : Protection := ⟨"userY", "passY"⟩

/-- The spec's example tree: root carries X, child "a" carries no policy,
grandchild "b" carries Y. -/
def exTree : Directory :=
  .node "" [.node "a" [.node "b" [] (some protY)] none] (some protX)

/-- A profile table whose reference graph is an acyclic diamond with every
reference defined: p refers to a and b, both of which refer to c. -/
def diamond : Profiles :=
  [("p", ["#a", "#b"]), ("a", ["#c"]), ("b", ["#c"]), ("c", ["main"])]

/-- A small well-formed profile table: p refers to a, a holds a branch. -/
def okProfiles : Profiles :=
  [("p", ["#a"]), ("a", ["main"])]

/-- A Serve environment in which every external operation succeeds. -/
def envAllOk : ServeEnv :=
  { branches := ["main"], absOk1 := true, statErr := false,
    hashResult := some "0a1b", absOk2 := true, mkdirOk := true,
    mergeOk := true, directivesNonEmpty := false, writeDirectivesOk := true,
    writeKeyOk := true, buildPatternsOk := true, applyOk := true,
    symlinkOk := true }

/-- The all-ok environment with a failing merge. -/
def envMergeFail : ServeEnv :=
  { envAllOk with mergeOk := false }

/-- File-system state with neither target directory nor alias. -/
def fsEmpty : FsState :=
  { targetDirExists := false, aliasExists := false }

/-- File-system state where alias and target already exist (published). -/
def fsAliased : FsState :=
  { targetDirExists := true, aliasExists := true }

/-- File-system state where the fingerprint directory exists but the
profile alias does not (a second profile sharing the content). -/
def fsTargetOnly : FsState :=
  { targetDirExists := true, aliasExists := false }

/-! ## Theorems -/

/-- The code's FindProtection agrees with the chain description: walk the
matched chain of children and return the first Protection on it. -/
theorem findProtection_chain (d : Directory) (path : List String) :
    Directory.findProtection d path = firstProt (chainNodes d path) := by
  induction path generalizing d with
  | nil => rfl
  | cons part rest ih =>
    by_cases hp : part = ""
    · simp [Directory.findProtection, chainNodes, hp, ih]
    · simp only [Directory.findProtection, chainNodes, if_neg hp]
      cases hfind : (Directory.folders d).find? (fun f => Directory.name f == part) with
      | none => simp [firstProt]
      | some next =>
        cases hprot : Directory.protection next with
        | some p => simp [firstProt, hprot]
        | none => simp [firstProt, hprot, ih]

/-- C1 counterexample: in the spec's own example tree the query a/file
does not return the root's protection X; the code returns no protection
at all, because FindProtection never consults an already-descended node's
(or the root's) policy and returns nil as soon as a segment has no
matching child. -/
theorem c1_findProtection_counterexample :
    Directory.findProtection exTree ["a", "file"] ≠ some protX
    ∧ Directory.findProtection exTree ["a", "file"] = none := by
  decide

/-- C1 (amended): FindProtection walks from the tree root following the
path segments (empty segments skipped) and returns the Protection of the
first descended child that carries one; when a segment has no matching
child before any Protection was found it returns none — the root's own
Protection is never returned.  In the example tree, a/b/file yields Y and
a/file yields none. -/
theorem c1_findProtection_amended :
    (∀ d path, Directory.findProtection d path = firstProt (chainNodes d path))
    ∧ Directory.findProtection exTree ["a", "b", "file"] = some protY
    ∧ Directory.findProtection exTree ["a", "file"] = none :=
  ⟨fun d path => findProtection_chain d path, by decide, by decide⟩

/-- C2: the pattern loop of PatternActions.Apply has no break, so
provider-metadata.json — although it matches the zero-action
metadata-exclusion pattern — also matches the later generic .json pattern
and gets hashed and signed; under the spec's first-match-wins rule it
would get no action at all. -/
theorem c2_apply_divergence :
    metadataPat "provider-metadata.json" = true
    ∧ applyActions buildPatternActions "provider-metadata.json"
        = [ActionTag.hashA, ActionTag.signA]
    ∧ firstMatchActions buildPatternActions "provider-metadata.json" = [] := by
  decide

/-- C10: LoadDirectory on a missing file returns the empty tree and no
error, and every FindProtection lookup against the empty tree yields no
protection. -/
theorem c10_loadDirectory_missing :
    loadDirectory .notExist = .ok (.node "" [] none)
    ∧ ∀ path, Directory.findProtection (.node "" [] none) path = none := by
  refine ⟨rfl, ?_⟩
  intro path
  induction path with
  | nil => rfl
  | cons x rest ih =>
    by_cases hx : x = ""
    · simpa [Directory.findProtection, hx] using ih
    · simp [Directory.findProtection, hx, Directory.folders]

/-- C4: when the profile alias already exists (and os.Stat does not fail),
Serve returns success at once, the file-system state is unchanged, and no
effect at all is performed — no fingerprint computation, no merge, no
write. -/
theorem c4_serve_memoized (env : ServeEnv) (fs : FsState)
    (hb : env.branches ≠ []) (h1 : env.absOk1 = true) (hs : env.statErr = false)
    (ha : fs.aliasExists = true) :
    (serve env fs).1 = .ok () ∧ (serve env fs).2.1 = fs ∧ (serve env fs).2.2 = [] := by
  have hb0 : ¬ env.branches.length = 0 := by
    simpa [List.length_eq_zero] using hb
  simp [serve, hb0, h1, hs, ha]

/-- Witness for c4_serve_memoized: the all-ok environment over an already
published state. -/
theorem c4_serve_memoized_witness :
    (serve envAllOk fsAliased).1 = .ok ()
    ∧ (serve envAllOk fsAliased).2.1 = fsAliased
    ∧ (serve envAllOk fsAliased).2.2 = [] :=
  c4_serve_memoized envAllOk fsAliased (by decide) (by decide) (by decide) (by decide)

/-- C3: when Serve gets past creating the target Materialized Directory
and any of merge, directive-tree serialization, public-key export, pattern
construction or pattern application fails, Serve returns an error, the
target directory no longer exists, and no alias was created. -/
theorem c3_serve_cleanup (env : ServeEnv) (fs : FsState)
    (hb : env.branches ≠ []) (h1 : env.absOk1 = true) (hs : env.statErr = false)
    (ha : fs.aliasExists = false) (hh : env.hashResult.isSome = true)
    (h2 : env.absOk2 = true) (hm : env.mkdirOk = true)
    (hfail : env.mergeOk = false
      ∨ (env.directivesNonEmpty = true ∧ env.writeDirectivesOk = false)
      ∨ env.writeKeyOk = false ∨ env.buildPatternsOk = false ∨ env.applyOk = false) :
    (∃ e, (serve env fs).1 = .error e)
    ∧ (serve env fs).2.1.targetDirExists = false
    ∧ (serve env fs).2.1.aliasExists = false
    ∧ Eff.symlinkE ∉ (serve env fs).2.2 := by
  obtain ⟨br, a1, se, hr, a2, mk, mg, dn, wd, wk, bp, ap, sl⟩ := env
  obtain ⟨td, al⟩ := fs
  simp only at h1 hs hh h2 hm hfail hb
  obtain ⟨v, hv⟩ := Option.isSome_iff_exists.mp hh
  subst h1 hs h2 hm hv
  obtain rfl : al = false := ha
  have hb0 : ¬ br.length = 0 := by simpa [List.length_eq_zero] using hb
  cases mg <;> cases dn <;> cases wd <;> cases wk <;> cases bp <;> cases ap <;> cases sl <;>
    simp_all [serve, errExit]

/-- Witness for c3_serve_cleanup: a failing merge in the all-ok
environment leaves no target directory and no alias. -/
theorem c3_serve_cleanup_witness :
    (∃ e, (serve envMergeFail fsEmpty).1 = .error e)
    ∧ (serve envMergeFail fsEmpty).2.1.targetDirExists = false
    ∧ (serve envMergeFail fsEmpty).2.1.aliasExists = false
    ∧ Eff.symlinkE ∉ (serve envMergeFail fsEmpty).2.2 :=
  c3_serve_cleanup envMergeFail fsEmpty (by decide) (by decide) (by decide)
    (by decide) (by decide) (by decide) (by decide) (Or.inl (by decide))

/-- Serve never tests whether the fingerprint directory already exists:
once it is past the memoization check and the hash, it always runs the
merge (os.MkdirAll succeeds on an existing directory and the merge is
unconditional). -/
theorem serve_merges_when_building (env : ServeEnv) (fs : FsState)
    (hb : env.branches ≠ []) (h1 : env.absOk1 = true) (hs : env.statErr = false)
    (ha : fs.aliasExists = false) (hh : env.hashResult.isSome = true)
    (h2 : env.absOk2 = true) (hm : env.mkdirOk = true) :
    Eff.mergeBranchesE ∈ (serve env fs).2.2 := by
  obtain ⟨br, a1, se, hr, a2, mk, mg, dn, wd, wk, bp, ap, sl⟩ := env
  obtain ⟨td, al⟩ := fs
  simp only at h1 hs hh h2 hm hb
  obtain ⟨v, hv⟩ := Option.isSome_iff_exists.mp hh
  subst h1 hs h2 hm hv
  obtain rfl : al = false := ha
  have hb0 : ¬ br.length = 0 := by simpa [List.length_eq_zero] using hb
  cases mg <;> cases dn <;> cases wd <;> cases wk <;> cases bp <;> cases ap <;> cases sl <;>
    simp_all [serve, errExit]

/-- C5 counterexample: with the target Materialized Directory already
present (and the alias absent), Serve still performs the merge and the
post-processing — it does not skip straight to aliasing. -/
theorem c5_serve_counterexample :
    fsTargetOnly.targetDirExists = true
    ∧ Eff.mergeBranchesE ∈ (serve envAllOk fsTargetOnly).2.2
    ∧ Eff.applyPatternsE ∈ (serve envAllOk fsTargetOnly).2.2
    ∧ (serve envAllOk fsTargetOnly).1 = .ok () := by
  decide

/-- C5 (amended): Serve performs the merge whenever it builds (whether or
not the fingerprint directory already exists — MkdirAll tolerates an
existing directory and nothing is skipped); the dedup half survives: the
fingerprint directory name depends only on the collected branch
revisions, so profiles whose resolved revision sequences coincide get the
same Materialized Directory name. -/
theorem c5_serve_dedup_amended :
    (∀ env fs, env.branches ≠ [] → env.absOk1 = true → env.statErr = false →
      fs.aliasExists = false → env.hashResult.isSome = true →
      env.absOk2 = true → env.mkdirOk = true →
      Eff.mergeBranchesE ∈ (serve env fs).2.2)
    ∧ (∀ h rev bs1 bs2, collectRevs rev bs1 = collectRevs rev bs2 →
      allRevisionsHash h rev bs1 = allRevisionsHash h rev bs2) := by
  constructor
  · intro env fs hb h1 hs ha hh h2 hm
    exact serve_merges_when_building env fs hb h1 hs ha hh h2 hm
  · intro h rev bs1 bs2 hc
    simp [allRevisionsHash, hc]

/-- Revisions collected for a branch list have one entry per branch. -/
theorem collectRevs_length (rev : String → Option String) :
    ∀ (bs : List String) (rs : List String),
      collectRevs rev bs = some rs → rs.length = bs.length := by
  intro bs
  induction bs with
  | nil => intro rs h; simp [collectRevs] at h; simp [h.symm]
  | cons b rest ih =>
    intro rs h
    simp only [collectRevs] at h
    cases hb : rev b with
    | none => simp [hb] at h
    | some r =>
      rw [hb] at h
      cases hc : collectRevs rev rest with
      | none => simp [hc] at h
      | some rs1 =>
        rw [hc] at h
        simp at h
        subst h
        simp [ih rs1 hc]

/-- When exactly one branch's revision changes, the collected revision
lists differ. -/
theorem collectRevs_ne (rev rev2 : String → Option String) :
    ∀ (bs : List String) (b : String) (rs rs2 : List String), b ∈ bs →
      rev b ≠ rev2 b → (∀ c ∈ bs, c ≠ b → rev c = rev2 c) →
      collectRevs rev bs = some rs → collectRevs rev2 bs = some rs2 → rs ≠ rs2 := by
  intro bs
  induction bs with
  | nil => intro b rs rs2 hmem; simp at hmem
  | cons c rest ih =>
    intro b rs rs2 hmem hne hagree h1 h2
    simp only [collectRevs] at h1 h2
    cases hr1 : rev c with
    | none => simp [hr1] at h1
    | some r1 =>
      rw [hr1] at h1
      cases hc1 : collectRevs rev rest with
      | none => simp [hc1] at h1
      | some t1 =>
        rw [hc1] at h1
        simp at h1
        cases hr2 : rev2 c with
        | none => simp [hr2] at h2
        | some r2 =>
          rw [hr2] at h2
          cases hc2 : collectRevs rev2 rest with
          | none => simp [hc2] at h2
          | some t2 =>
            rw [hc2] at h2
            simp at h2
            subst h1 h2
            by_cases hcb : c = b
            · subst hcb
              have : r1 ≠ r2 := by
                intro hrr
                exact hne (by rw [hr1, hr2, hrr])
              simp [this]
            · have hmem2 : b ∈ rest := by
                rcases List.mem_cons.mp hmem with h | h
                · exact absurd h.symm hcb
                · exact h
              have hhead : r1 = r2 := by
                have := hagree c (by simp) hcb
                rw [hr1, hr2] at this
                exact Option.some.inj this
              have htail : t1 ≠ t2 :=
                ih b t1 t2 hmem2 hne (fun d hd hdb => hagree d (by simp [hd]) hdb) hc1 hc2
              simp [hhead, htail]

/-- Concatenation of equally many fixed-length blocks is injective. -/
theorem flatten_fixed_inj (L : Nat) :
    ∀ (l1 l2 : List (List Char)), (∀ x ∈ l1, x.length = L) → (∀ x ∈ l2, x.length = L) →
      l1.length = l2.length → l1.flatten = l2.flatten → l1 = l2 := by
  intro l1
  induction l1 with
  | nil =>
    intro l2 _ _ hlen _
    cases l2 with
    | nil => rfl
    | cons y t => simp at hlen
  | cons x t1 ih =>
    intro l2 h1 h2 hlen hflat
    cases l2 with
    | nil => simp at hlen
    | cons y t2 =>
      simp only [List.flatten_cons] at hflat
      have hxy : x.length = y.length := by
        rw [h1 x (by simp), h2 y (by simp)]
      obtain ⟨hxe, hte⟩ := List.append_inj hflat hxy
      have := ih t2 (fun z hz => h1 z (by simp [hz])) (fun z hz => h2 z (by simp [hz]))
        (by simpa using hlen) hte
      rw [hxe, this]

/-- The digest input determines the revision list when all revisions have
one fixed length (as 40-hex git revisions do). -/
theorem revStream_inj (L : Nat) (rs rs2 : List String)
    (h1 : ∀ s ∈ rs, s.length = L) (h2 : ∀ s ∈ rs2, s.length = L)
    (hlen : rs.length = rs2.length) (hstream : revStream rs = revStream rs2) :
    rs = rs2 := by
  have hdata : rs.map String.data = rs2.map String.data := by
    apply flatten_fixed_inj L
    · intro x hx
      obtain ⟨s, hs, rfl⟩ := List.mem_map.mp hx
      exact h1 s hs
    · intro x hx
      obtain ⟨s, hs, rfl⟩ := List.mem_map.mp hx
      exact h2 s hs
    · simpa using hlen
    · exact hstream
  have hinj : Function.Injective String.data := fun a b hab => String.ext hab
  exact List.map_injective_iff.mpr hinj hdata

/-- An advancing branch changes the fingerprint, for any injective digest,
when all revisions share one fixed length. -/
theorem advance_ne (L : Nat) (h : List Char → String) (rev rev2 : String → Option String)
    (bs : List String) (b : String) (rs rs2 : List String)
    (hinj : Function.Injective h) (hmem : b ∈ bs) (hne : rev b ≠ rev2 b)
    (hagree : ∀ c ∈ bs, c ≠ b → rev c = rev2 c)
    (hc1 : collectRevs rev bs = some rs) (hc2 : collectRevs rev2 bs = some rs2)
    (hl1 : ∀ s ∈ rs, s.length = L) (hl2 : ∀ s ∈ rs2, s.length = L) :
    allRevisionsHash h rev bs ≠ allRevisionsHash h rev2 bs := by
  simp only [allRevisionsHash, hc1, hc2]
  intro heq
  simp only [Option.some.injEq] at heq
  have hstream : revStream rs = revStream rs2 := hinj heq
  have hlen : rs.length = rs2.length := by
    rw [collectRevs_length rev bs rs hc1, collectRevs_length rev2 bs rs2 hc2]
  exact collectRevs_ne rev rev2 bs b rs rs2 hmem hne hagree hc1 hc2
    (revStream_inj L rs rs2 hl1 hl2 hlen hstream)

/-- C6 counterexample: with the identity digest and equal revisions, two
different single-branch recipes fingerprint identically although their
(branch-identifier, revision) pair sequences differ — the branch
identifiers are not part of the digested data. -/
theorem c6_fingerprint_counterexample :
    allRevisionsHash (fun l => String.mk l) (fun _ => some "r") ["A"]
      = allRevisionsHash (fun l => String.mk l) (fun _ => some "r") ["B"]
    ∧ specRevisionPairs (fun _ => some "r") ["A"] ≠ specRevisionPairs (fun _ => some "r") ["B"] := by
  decide

/-- C6 (amended): the fingerprint digests the concatenation of the
revisions of the configured branch list, in order, and nothing else.
Same branches with same revisions give the same fingerprint; a single
branch advancing changes the digest input whenever all revisions share a
fixed length (so any injective digest yields a different fingerprint);
and order matters: [A, B] and [B, A] may fingerprint differently. -/
theorem c6_fingerprint_amended :
    (∀ (h : List Char → String) (rev rev2 : String → Option String) (bs : List String),
      (∀ b ∈ bs, rev b = rev2 b) → allRevisionsHash h rev bs = allRevisionsHash h rev2 bs)
    ∧ (∀ (L : Nat) (h : List Char → String) (rev rev2 : String → Option String)
        (bs : List String) (b : String) (rs rs2 : List String),
      Function.Injective h → b ∈ bs → rev b ≠ rev2 b →
      (∀ c ∈ bs, c ≠ b → rev c = rev2 c) →
      collectRevs rev bs = some rs → collectRevs rev2 bs = some rs2 →
      (∀ s ∈ rs, s.length = L) → (∀ s ∈ rs2, s.length = L) →
      allRevisionsHash h rev bs ≠ allRevisionsHash h rev2 bs)
    ∧ allRevisionsHash (fun l => String.mk l)
        (fun b => if b = "A" then some "x" else some "y") ["A", "B"]
      ≠ allRevisionsHash (fun l => String.mk l)
        (fun b => if b = "A" then some "x" else some "y") ["B", "A"] := by
  refine ⟨?_, ?_, by decide⟩
  · intro h rev rev2 bs hagree
    have hcoll : collectRevs rev bs = collectRevs rev2 bs := by
      induction bs with
      | nil => rfl
      | cons b rest ih =>
        have hb := hagree b (by simp)
        have hrest : ∀ c ∈ rest, rev c = rev2 c := fun c hc => hagree c (by simp [hc])
        simp [collectRevs, hb, ih hrest]
    simp [allRevisionsHash, hcoll]
  · intro L h rev rev2 bs b rs rs2 hinj hmem hne hagree hc1 hc2 hl1 hl2
    exact advance_ne L h rev rev2 bs b rs rs2 hinj hmem hne hagree hc1 hc2 hl1 hl2

theorem lookup_write_self (fs : Fs) (p c : String) :
    lookupFile (writeFile fs p c) p = some c := by
  induction fs with
  | nil => simp [writeFile, lookupFile, List.find?]
  | cons e rest ih =>
    by_cases he : e.1 = p
    · simp [writeFile, lookupFile, List.find?, he]
    · have hbe : (e.1 == p) = false := by simpa using he
      simp only [writeFile, hbe, if_false, Bool.false_eq_true]
      simpa [lookupFile, List.find?, hbe] using ih

theorem lookup_write_other (fs : Fs) (p c q : String) (hqp : q ≠ p) :
    lookupFile (writeFile fs p c) q = lookupFile fs q := by
  have hpq : (p == q) = false := by
    simp
    intro h
    exact hqp h.symm
  induction fs with
  | nil => simp [writeFile, lookupFile, List.find?, hpq]
  | cons e rest ih =>
    by_cases he : e.1 = p
    · have hbe : (e.1 == p) = true := by simpa using he
      have heq : (e.1 == q) = false := by
        simp
        intro h
        exact hqp (by rw [← h, he])
      simp [writeFile, hbe, lookupFile, List.find?, hpq, heq, he]
    · have hbe : (e.1 == p) = false := by simpa using he
      simp only [writeFile, hbe, if_false, Bool.false_eq_true]
      by_cases heq : e.1 = q
      · simp [lookupFile, List.find?, heq]
      · have hbq : (e.1 == q) = false := by simpa using heq
        simpa [lookupFile, List.find?, hbq] using ih

theorem strAppend_ne (f a b : String) (hab : a ≠ b) : f ++ a ≠ f ++ b := by
  intro h
  apply hab
  have hd : (f ++ a).data = (f ++ b).data := by rw [h]
  rw [String.data_append, String.data_append] at hd
  exact String.ext (List.append_cancel_left hd)

theorem sha_ne (file : String) : file ++ ".sha256" ≠ file ++ ".sha512" :=
  strAppend_ne file ".sha256" ".sha512" (by decide)

theorem hashFile_idem (h256 h512 : List Char → String) (fs : Fs) (file : String)
    (fs2 : Fs) (tr : List String) (h : hashFile h256 h512 fs file = .ok (fs2, tr)) :
    hashFile h256 h512 fs2 file = .ok (fs2, []) := by
  have hex : checkFileNotExists fs2 (file ++ ".sha256") = false
      ∧ checkFileNotExists fs2 (file ++ ".sha512") = false := by
    cases h256x : checkFileNotExists fs (file ++ ".sha256") with
    | false =>
      cases h512x : checkFileNotExists fs (file ++ ".sha512") with
      | false =>
        -- early return: fs2 = fs
        simp [hashFile, writeFileHashes, h256x, h512x] at h
        obtain ⟨rfl, -⟩ := h
        exact ⟨h256x, h512x⟩
      | true =>
        simp only [hashFile, writeFileHashes, h256x, h512x] at h
        cases hl : lookupFile fs file with
        | none => simp [hl] at h
        | some content =>
          simp [hl, writeHashtoFile] at h
          obtain ⟨rfl, -⟩ := h
          constructor
          · simp only [checkFileNotExists] at h256x ⊢
            rw [lookup_write_other _ _ _ _ (sha_ne file)]
            exact h256x
          · simp [checkFileNotExists, lookup_write_self]
    | true =>
      cases h512x : checkFileNotExists fs (file ++ ".sha512") with
      | false =>
        simp only [hashFile, writeFileHashes, h256x, h512x] at h
        cases hl : lookupFile fs file with
        | none => simp [hl] at h
        | some content =>
          simp [hl, writeHashtoFile] at h
          obtain ⟨rfl, -⟩ := h
          constructor
          · simp [checkFileNotExists, lookup_write_self]
          · simp only [checkFileNotExists] at h512x ⊢
            rw [lookup_write_other _ _ _ _ (fun hq => sha_ne file hq.symm)]
            exact h512x
      | true =>
        simp only [hashFile, writeFileHashes, h256x, h512x] at h
        cases hl : lookupFile fs file with
        | none => simp [hl] at h
        | some content =>
          simp [hl, writeHashtoFile] at h
          obtain ⟨rfl, -⟩ := h
          constructor
          · simp only [checkFileNotExists]
            rw [lookup_write_other _ _ _ _ (sha_ne file), lookup_write_self]
            simp
          · simp [checkFileNotExists, lookup_write_self]
  simp [hashFile, writeFileHashes, hex.1, hex.2]

theorem signFile_idem (sig : List Char → String) (fs : Fs) (file : String)
    (fs2 : Fs) (tr : List String) (h : signFileAct sig fs file = .ok (fs2, tr)) :
    signFileAct sig fs2 file = .ok (fs2, []) := by
  cases hx : checkFileNotExists fs (file ++ ".asc") with
  | false =>
    simp [signFileAct, hx] at h
    obtain ⟨rfl, -⟩ := h
    simp [signFileAct, hx]
  | true =>
    simp only [signFileAct, hx, if_true] at h
    cases hl : lookupFile fs file with
    | none => simp [hl] at h
    | some content =>
      simp [hl] at h
      obtain ⟨rfl, -⟩ := h
      have : checkFileNotExists (writeFile fs (file ++ ".asc") (sig content.data)) (file ++ ".asc") = false := by
        simp [checkFileNotExists, lookup_write_self]
      simp [signFileAct, this]

theorem hashFile_format (h256 h512 : List Char → String) (fs : Fs) (file content : String)
    (fs2 : Fs) (tr : List String) (hl : lookupFile fs file = some content)
    (hnx : checkFileNotExists fs (file ++ ".sha256") = true)
    (h : hashFile h256 h512 fs file = .ok (fs2, tr)) :
    lookupFile fs2 (file ++ ".sha256")
      = some (h256 content.data ++ " " ++ baseName file ++ "\n") := by
  cases h512x : checkFileNotExists fs (file ++ ".sha512") with
  | false =>
    simp [hashFile, writeFileHashes, hnx, h512x, hl, writeHashtoFile] at h
    obtain ⟨rfl, -⟩ := h
    simp [lookup_write_self]
  | true =>
    simp [hashFile, writeFileHashes, hnx, h512x, hl, writeHashtoFile] at h
    obtain ⟨rfl, -⟩ := h
    rw [lookup_write_other _ _ _ _ (sha_ne file)]
    simp [lookup_write_self]

/-- C8: hashFile and the sign action are idempotent — a run that succeeded
leaves a state on which a second run succeeds, changes nothing and writes
no file — and a hash sidecar written on the first run contains exactly the
digest hex, a space, the file's base name and a newline. -/
theorem c8_hash_sign_idempotent :
    (∀ (h256 h512 : List Char → String) (fs : Fs) (file : String) (fs2 : Fs) (tr : List String),
      hashFile h256 h512 fs file = .ok (fs2, tr) → hashFile h256 h512 fs2 file = .ok (fs2, []))
    ∧ (∀ (sig : List Char → String) (fs : Fs) (file : String) (fs2 : Fs) (tr : List String),
      signFileAct sig fs file = .ok (fs2, tr) → signFileAct sig fs2 file = .ok (fs2, []))
    ∧ (∀ (h256 h512 : List Char → String) (fs : Fs) (file content : String) (fs2 : Fs)
        (tr : List String),
      lookupFile fs file = some content →
      checkFileNotExists fs (file ++ ".sha256") = true →
      hashFile h256 h512 fs file = .ok (fs2, tr) →
      lookupFile fs2 (file ++ ".sha256")
        = some (h256 content.data ++ " " ++ baseName file ++ "\n")) :=
  ⟨fun h256 h512 fs file fs2 tr h => hashFile_idem h256 h512 fs file fs2 tr h,
   fun sig fs file fs2 tr h => signFile_idem sig fs file fs2 tr h,
   fun h256 h512 fs file content fs2 tr hl hnx h =>
     hashFile_format h256 h512 fs file content fs2 tr hl hnx h⟩

/-- The directory walk never renames the node it starts from. -/
theorem addTo_name (d : Directory) (path : List String) (prot : Option Protection) :
    (addTo d path prot).name = d.name := by
  cases d with
  | node n fs p => cases path <;> rfl

/-- Looking up the replaced name finds the replacement. -/
theorem find_replaceFirst_self (fs : List Directory) (part : String) (r : Directory)
    (hr : r.name = part) :
    List.find? (fun f => Directory.name f == part) (replaceFirst fs part r) = some r := by
  induction fs with
  | nil => simp [replaceFirst, List.find?, hr]
  | cons f rest ih =>
    by_cases hf : f.name = part
    · have hbf : (f.name == part) = true := by simpa using hf
      simp [replaceFirst, hbf, List.find?, hr]
    · have hbf : (f.name == part) = false := by simpa using hf
      simp only [replaceFirst, hbf, Bool.false_eq_true, if_false]
      simpa [List.find?, hbf] using ih

/-- Looking up any other name is unaffected by the replacement. -/
theorem find_replaceFirst_other (fs : List Directory) (part x : String) (r : Directory)
    (hx : x ≠ part) (hr : r.name = part) :
    List.find? (fun f => Directory.name f == x) (replaceFirst fs part r)
      = List.find? (fun f => Directory.name f == x) fs := by
  have hrx : (r.name == x) = false := by
    simp [hr]
    intro h
    exact hx h.symm
  induction fs with
  | nil => simp [replaceFirst, List.find?, hrx]
  | cons f rest ih =>
    by_cases hf : f.name = part
    · have hbf : (f.name == part) = true := by simpa using hf
      have hfx : (f.name == x) = false := by
        simp [hf]
        intro h
        exact hx h.symm
      simp [replaceFirst, hbf, List.find?, hrx, hfx]
    · have hbf : (f.name == part) = false := by simpa using hf
      simp only [replaceFirst, hbf, Bool.false_eq_true, if_false]
      by_cases hfx : f.name = x
      · have : (f.name == x) = true := by simpa using hfx
        simp [List.find?, this]
      · have hbx : (f.name == x) = false := by simpa using hfx
        simpa [List.find?, hbx] using ih

/-- A freshly created folder carries no protection anywhere. -/
theorem protAt_fresh (part : String) (r : List String) :
    protAt (.node part [] none) r = none := by
  cases r <;> simp [protAt, Directory.protection, Directory.folders, List.find?]

/-- A freshly created folder has exactly one node, its root. -/
theorem hasNode_fresh (part : String) (r : List String) :
    hasNode (.node part [] none) r = r.isEmpty := by
  cases r <;> simp [hasNode, Directory.folders, List.find?, List.isEmpty]

/-- Complete characterization of one addDirectives walk: it sets the
protection at its target folder path and changes no other node's
protection. -/
theorem protAt_addTo (p : List String) (d : Directory) (prot : Option Protection)
    (q : List String) :
    protAt (addTo d p prot) q = if q = p then prot else protAt d q := by
  induction p generalizing d q with
  | nil =>
    cases d with
    | node n fs pOld =>
      cases q with
      | nil => simp [addTo, protAt, Directory.protection]
      | cons x r => simp [addTo, protAt, Directory.folders]
  | cons part rest ih =>
    cases d with
    | node n fs pOld =>
      have hcname : ∀ c, fs.find? (fun f => Directory.name f == part) = some c →
          Directory.name c = part := by
        intro c hc
        have := List.find?_some hc
        simpa using this
      have hname : (addTo (match fs.find? (fun f => Directory.name f == part) with
          | some c => c
          | none => .node part [] none) rest prot).name = part := by
        rw [addTo_name]
        cases hc : fs.find? (fun f => Directory.name f == part) with
        | none => rfl
        | some c => exact hcname c hc
      cases q with
      | nil => simp [addTo, protAt, Directory.protection]
      | cons x r =>
        by_cases hx : x = part
        · subst hx
          simp only [addTo, protAt, Directory.folders]
          rw [find_replaceFirst_self _ _ _ hname]
          simp only []
          rw [ih]
          by_cases hr : r = rest
          · simp [hr]
          · have hne : ¬ (x :: r = x :: rest) := by simp [hr]
            rw [if_neg hr, if_neg hne]
            cases hc : fs.find? (fun f => Directory.name f == x) with
            | none => simp [protAt, Directory.folders, hc, protAt_fresh]
            | some c => simp [protAt, Directory.folders, hc]
        · have hne : ¬ (x :: r = part :: rest) := by simp [hx]
          simp only [addTo, protAt, Directory.folders, if_neg hne]
          rw [find_replaceFirst_other fs part x _ hx hname]

/-- Complete characterization of the nodes after one addDirectives walk:
exactly the old nodes plus every prefix of the target folder path. -/
theorem hasNode_addTo (p : List String) (d : Directory) (prot : Option Protection)
    (q : List String) :
    hasNode (addTo d p prot) q = (hasNode d q || q.isPrefixOf p) := by
  induction p generalizing d q with
  | nil =>
    cases d with
    | node n fs pOld =>
      cases q with
      | nil => simp [addTo, hasNode]
      | cons x r => simp [addTo, hasNode, Directory.folders, List.isPrefixOf]
  | cons part rest ih =>
    cases d with
    | node n fs pOld =>
      have hcname : ∀ c, fs.find? (fun f => Directory.name f == part) = some c →
          Directory.name c = part := by
        intro c hc
        have := List.find?_some hc
        simpa using this
      have hname : (addTo (match fs.find? (fun f => Directory.name f == part) with
          | some c => c
          | none => .node part [] none) rest prot).name = part := by
        rw [addTo_name]
        cases hc : fs.find? (fun f => Directory.name f == part) with
        | none => rfl
        | some c => exact hcname c hc
      cases q with
      | nil => simp [addTo, hasNode]
      | cons x r =>
        by_cases hx : x = part
        · subst hx
          simp only [addTo, hasNode, Directory.folders, List.isPrefixOf, beq_self_eq_true,
            Bool.true_and]
          rw [find_replaceFirst_self _ _ _ hname]
          simp only []
          rw [ih]
          cases hc : fs.find? (fun f => Directory.name f == x) with
          | none =>
            simp only []
            rw [hasNode_fresh]
            cases r with
            | nil => simp [List.isPrefixOf]
            | cons y t => simp [List.isEmpty]
          | some c => simp only []
        · have hbx : (x == part) = false := by simpa using hx
          simp only [addTo, hasNode, Directory.folders, List.isPrefixOf, hbx,
            Bool.false_and, Bool.or_false]
          rw [find_replaceFirst_other fs part x _ hx hname]

/-- C9: two addDirectives calls for directive files whose folder paths
differ commute — the resulting trees agree on every node's existence and
protection (the tree as every lookup of the source observes it, i.e. up
to sibling order) — and when both calls target the same folder path the
later call's Protection wins. -/
theorem c9_addDirectives_convergence :
    (∀ (t : Option Directory) (p1 p2 : List String) (d1 d2 : Directives) (q : List String),
      p1.dropLast ≠ p2.dropLast →
      protAtB (addDirectives (addDirectives t p1 d1) p2 d2) q
        = protAtB (addDirectives (addDirectives t p2 d2) p1 d1) q
      ∧ hasNodeB (addDirectives (addDirectives t p1 d1) p2 d2) q
        = hasNodeB (addDirectives (addDirectives t p2 d2) p1 d1) q)
    ∧ (∀ (t : Option Directory) (p1 p2 : List String) (d1 d2 : Directives),
      p1.dropLast = p2.dropLast →
      protAtB (addDirectives (addDirectives t p1 d1) p2 d2) p2.dropLast = d2.protection) := by
  constructor
  · intro t p1 p2 d1 d2 q hne
    constructor
    · simp only [addDirectives, protAtB, Option.getD]
      rw [protAt_addTo, protAt_addTo, protAt_addTo, protAt_addTo]
      by_cases h2 : q = p2.dropLast
      · rw [if_pos h2, if_neg (h2 ▸ hne ∘ Eq.symm), if_pos h2]
      · by_cases h1 : q = p1.dropLast
        · rw [if_neg h2, if_pos h1, if_pos h1]
        · rw [if_neg h2, if_neg h1, if_neg h1, if_neg h2]
    · simp only [addDirectives, hasNodeB, Option.getD]
      rw [hasNode_addTo, hasNode_addTo, hasNode_addTo, hasNode_addTo]
      cases hasNode (t.getD (Directory.node "" [] none)) q <;>
        cases hq1 : q.isPrefixOf p1.dropLast <;> cases hq2 : q.isPrefixOf p2.dropLast <;> simp
  · intro t p1 p2 d1 d2 hsame
    simp only [addDirectives, protAtB, Option.getD]
    rw [protAt_addTo, if_pos rfl]

/-- Any one profile branch list is no longer than the total bound. -/
theorem branchBound_ge (p : Profiles) (d : String) (bs : List String)
    (h : lookupProfile p d = some bs) : bs.length ≤ branchBound p := by
  simp only [lookupProfile] at h
  cases hf : List.find? (fun e => e.1 == d) p with
  | none => rw [hf] at h; cases h
  | some e =>
    rw [hf] at h
    have he : e ∈ p := List.mem_of_find?_eq_some hf
    have : e.2.length ∈ p.map (fun e => e.2.length) := List.mem_map_of_mem _ he
    have hle := List.single_le_sum (l := p.map (fun e => e.2.length)) (fun x _ => Nat.zero_le x) _ this
    simp only [Option.some.injEq] at h
    rw [← h]
    exact hle

/-- The fuel bound of resolveRefs is never exhausted: every step consumes
a stack entry, and an expansion consumes an unseen profile while pushing
at most branchBound entries. -/
theorem resolveFuel_sufficient (p : Profiles) :
    ∀ (fuel : Nat) (unseen stack : List String),
      stack.length + unseen.length * branchBound p < fuel →
      resolveFuel p fuel unseen stack ≠ none := by
  intro fuel
  induction fuel with
  | zero => intro unseen stack h; exact absurd h (Nat.not_lt_zero _)
  | succ fuel ih =>
    intro unseen stack h
    cases stack with
    | nil => simp [resolveFuel]
    | cons b rest =>
      simp only [resolveFuel]
      cases hro : refOf b with
      | none =>
        apply ih
        simp only [List.length_cons] at h
        omega
      | some d =>
        simp only []
        by_cases hd : d ∈ unseen
        · rw [if_pos hd]
          cases hlk : lookupProfile p d with
          | none => simp
          | some bs =>
            apply ih
            have hbs : bs.length ≤ branchBound p := branchBound_ge p d bs hlk
            have herase : (unseen.erase d).length + 1 = unseen.length :=
              List.length_erase_add_one hd
            simp only [List.length_append, List.length_cons] at h ⊢
            have hmul : unseen.length * branchBound p
                = (unseen.erase d).length * branchBound p + branchBound p := by
              rw [← herase, Nat.succ_mul]
            rw [hmul] at h
            omega
        · rw [if_neg hd]
          by_cases hk : d ∈ profileKeys p <;> simp [hk]

/-- resolveRefs is the fuel run with the canonical fuel, which by
sufficiency is always a proper result. -/
theorem resolveRefs_eq_fuel (p : Profiles) (unseen stack : List String) :
    resolveFuel p (stack.length + unseen.length * branchBound p + 1) unseen stack
      = some (resolveRefs p unseen stack) := by
  cases h : resolveFuel p (stack.length + unseen.length * branchBound p + 1) unseen stack with
  | none =>
    exact absurd h (resolveFuel_sufficient p _ unseen stack (Nat.lt_succ_self _))
  | some r => simp [resolveRefs, h]

/-- Reachability only looks at membership of the starting list. -/
theorem reaches_mono (p : Profiles) (bs bs2 : List String) (x : String)
    (hsub : ∀ w ∈ bs, w ∈ bs2) (hr : Reaches p bs x) : Reaches p bs2 x := by
  cases hr with
  | base h1 h2 => exact .base (hsub _ h1) h2
  | step h1 h2 hlk hr2 => exact .step (hsub _ h1) h2 hlk hr2

/-- Soundness of the traversal: when it accepts, every profile reachable
through references from the pending branches was still unseen on entry —
so no reachable reference is already-seen (a cycle) or undefined. -/
theorem resolveFuel_sound (p : Profiles) :
    ∀ (fuel : Nat) (unseen stack : List String),
      resolveFuel p fuel unseen stack = some (.ok ()) →
      ∀ x, Reaches p stack x → x ∈ unseen := by
  intro fuel
  induction fuel with
  | zero =>
    intro unseen stack h x hr
    cases stack with
    | nil =>
      cases hr with
      | base h1 h2 => simp at h1
      | step h1 h2 hlk hr2 => simp at h1
    | cons b rest => simp [resolveFuel] at h
  | succ fuel ih =>
    intro unseen stack h x hr
    cases stack with
    | nil =>
      cases hr with
      | base h1 h2 => simp at h1
      | step h1 h2 hlk hr2 => simp at h1
    | cons b rest =>
      simp only [resolveFuel] at h
      cases hro : refOf b with
      | none =>
        rw [hro] at h
        simp only [] at h
        cases hr with
        | base h1 h2 =>
          rcases List.mem_cons.mp h1 with rfl | h1m
          · rw [hro] at h2; cases h2
          · exact ih unseen rest h x (.base h1m h2)
        | step h1 h2 hlk hr2 =>
          rcases List.mem_cons.mp h1 with rfl | h1m
          · rw [hro] at h2; cases h2
          · exact ih unseen rest h x (.step h1m h2 hlk hr2)
      | some d =>
        rw [hro] at h
        simp only [] at h
        by_cases hd : d ∈ unseen
        · rw [if_pos hd] at h
          cases hlk1 : lookupProfile p d with
          | none => rw [hlk1] at h; simp at h
          | some bs =>
            rw [hlk1] at h
            simp only [] at h
            cases hr with
            | base h1 h2 =>
              rcases List.mem_cons.mp h1 with rfl | h1m
              · rw [hro] at h2
                have hx : x = d := by
                  simpa using h2.symm
                subst hx
                exact hd
              · have hre : Reaches p (bs ++ rest) x :=
                  .base (List.mem_append_right bs h1m) h2
                exact List.mem_of_mem_erase (ih _ _ h x hre)
            | step h1 h2 hlk hr2 =>
              rcases List.mem_cons.mp h1 with rfl | h1m
              · rw [hro] at h2
                have hdd : _ = d := (Option.some.inj h2).symm
                subst hdd
                rw [hlk1] at hlk
                have hbs : bs = _ := Option.some.inj hlk
                have hre : Reaches p (bs ++ rest) x := by
                  apply reaches_mono p _ _ _ (fun w hw => List.mem_append_left rest hw)
                  rw [hbs]
                  exact hr2
                exact List.mem_of_mem_erase (ih _ _ h x hre)
              · have hre : Reaches p (bs ++ rest) x :=
                  .step (List.mem_append_right bs h1m) h2 hlk hr2
                exact List.mem_of_mem_erase (ih _ _ h x hre)
        · rw [if_neg hd] at h
          by_cases hk : d ∈ profileKeys p
          · rw [if_pos hk] at h; simp at h
          · rw [if_neg hk] at h; simp at h

/-- When the profile loop accepts, every single profile check accepted. -/
theorem checkList_ok (p : Profiles) :
    ∀ (l : List (String × List String)), checkList p l = .ok () →
      ∀ e ∈ l, checkOne p e.1 e.2 = .ok () := by
  intro l
  induction l with
  | nil => intro _ e he; simp at he
  | cons f rest ih =>
    intro h e he
    simp only [checkList] at h
    cases hc : checkOne p f.1 f.2 with
    | error err => rw [hc] at h; simp at h
    | ok u =>
      rw [hc] at h
      simp only [] at h
      rcases List.mem_cons.mp he with rfl | hm
      · rw [hc]
      · exact ih h e hm

/-- C7 (amended): when Profiles.check accepts a profile table with
distinct names, every profile reachable by #-references from any profile
is defined and distinct from the profile it is reached from — so a cyclic
chain or an undefined reference is always rejected.  (The converse of the
original claim fails: see the counterexample, an acyclic diamond that is
rejected.) -/
theorem c7_check_sound (p : Profiles) (hnd : (profileKeys p).Nodup)
    (hok : Profiles.check p = .ok ()) :
    ∀ n bs, (n, bs) ∈ p → ∀ x, Reaches p bs x → x ∈ profileKeys p ∧ x ≠ n := by
  intro n bs hmem x hr
  have h1 : checkOne p n bs = .ok () := by
    simpa using checkList_ok p p hok (n, bs) hmem
  have h2 : resolveRefs p ((profileKeys p).erase n) bs = .ok () := h1
  have h3 : resolveFuel p (bs.length + ((profileKeys p).erase n).length * branchBound p + 1)
      ((profileKeys p).erase n) bs = some (.ok ()) := by
    rw [resolveRefs_eq_fuel, h2]
  have h4 : x ∈ (profileKeys p).erase n := resolveFuel_sound p _ _ _ h3 x hr
  exact ⟨List.mem_of_mem_erase h4, ((List.Nodup.mem_erase_iff hnd).mp h4).1⟩

/-- Witness for c7_check_sound at a concrete well-formed table. -/
theorem c7_check_sound_witness :
    Profiles.check okProfiles = .ok ()
    ∧ (∀ n bs, (n, bs) ∈ okProfiles → ∀ x, Reaches okProfiles bs x →
        x ∈ profileKeys okProfiles ∧ x ≠ n) :=
  ⟨by decide, c7_check_sound okProfiles (by decide) (by decide)⟩

/-- Nothing is referenced from the branch list containing only main. -/
theorem diamond_reach_main (x : String) : ¬ Reaches diamond ["main"] x := by
  intro hr
  cases hr with
  | base h1 h2 =>
    simp only [List.mem_singleton] at h1
    subst h1
    rw [show refOf "main" = none from by decide] at h2
    cases h2
  | step h1 h2 hlk hr2 =>
    simp only [List.mem_singleton] at h1
    subst h1
    rw [show refOf "main" = none from by decide] at h2
    cases h2

/-- From the list referencing c, only c is reachable in the diamond. -/
theorem diamond_reach_c (x : String) (hr : Reaches diamond ["#c"] x) : x = "c" := by
  cases hr with
  | base h1 h2 =>
    simp only [List.mem_singleton] at h1
    subst h1
    rw [show refOf "#c" = some "c" from by decide] at h2
    exact (Option.some.inj h2).symm
  | step h1 h2 hlk hr2 =>
    simp only [List.mem_singleton] at h1
    subst h1
    rw [show refOf "#c" = some "c" from by decide] at h2
    have hd : _ = "c" := (Option.some.inj h2).symm
    subst hd
    rw [show lookupProfile diamond "c" = some ["main"] from by decide] at hlk
    rw [← Option.some.inj hlk] at hr2
    exact absurd hr2 (diamond_reach_main x)

/-- From the diamond root list, only a, b and c are reachable. -/
theorem diamond_reach_p (x : String) (hr : Reaches diamond ["#a", "#b"] x) :
    x = "a" ∨ x = "b" ∨ x = "c" := by
  cases hr with
  | base h1 h2 =>
    rcases List.mem_cons.mp h1 with rfl | h1m
    · rw [show refOf "#a" = some "a" from by decide] at h2
      exact Or.inl (Option.some.inj h2).symm
    · simp only [List.mem_singleton] at h1m
      subst h1m
      rw [show refOf "#b" = some "b" from by decide] at h2
      exact Or.inr (Or.inl (Option.some.inj h2).symm)
  | step h1 h2 hlk hr2 =>
    rcases List.mem_cons.mp h1 with rfl | h1m
    · rw [show refOf "#a" = some "a" from by decide] at h2
      have hd : _ = "a" := (Option.some.inj h2).symm
      subst hd
      rw [show lookupProfile diamond "a" = some ["#c"] from by decide] at hlk
      rw [← Option.some.inj hlk] at hr2
      exact Or.inr (Or.inr (diamond_reach_c x hr2))
    · simp only [List.mem_singleton] at h1m
      subst h1m
      rw [show refOf "#b" = some "b" from by decide] at h2
      have hd : _ = "b" := (Option.some.inj h2).symm
      subst hd
      rw [show lookupProfile diamond "b" = some ["#c"] from by decide] at hlk
      rw [← Option.some.inj hlk] at hr2
      exact Or.inr (Or.inr (diamond_reach_c x hr2))

/-- C7 counterexample: the diamond table has every reference defined and
an acyclic reference graph (no profile reaches itself), yet check rejects
it with a "self recursive" error, because the visited set is shared
across the whole depth-first walk of one profile. -/
theorem c7_check_counterexample :
    Profiles.check diamond = .error (ChkErr.recursiveRef "c")
    ∧ (diamond.all fun e =>
        e.2.all fun b => (refOf b).all fun r => decide (r ∈ profileKeys diamond)) = true
    ∧ (∀ n bs, (n, bs) ∈ diamond → ∀ x, Reaches diamond bs x → x ≠ n) := by
  refine ⟨by decide, by decide, ?_⟩
  intro n bs hmem x hr
  simp only [diamond, List.mem_cons, List.not_mem_nil, or_false, Prod.mk.injEq] at hmem
  rcases hmem with ⟨rfl, rfl⟩ | ⟨rfl, rfl⟩ | ⟨rfl, rfl⟩ | ⟨rfl, rfl⟩
  · rcases diamond_reach_p _ hr with rfl | rfl | rfl <;> decide
  · rw [diamond_reach_c x hr]; decide
  · rw [diamond_reach_c x hr]; decide
  · exact absurd hr (diamond_reach_main x)

end Contravider
